import Mathlib

/-
Verification of the cellbedform bedform engine (Nishimori-Ouchi cell model).

The embedding follows src/cellbedform/cellbedform.py.  The elevation grid
h is a function from integer coordinates (as natural numbers) to rational
elevations; only the cells with first index below xgrid and second index
below ygrid are meaningful.  Floating-point arithmetic of the source is
modelled by exact rational arithmetic; numpy round (half to even) is
modelled by npRound below.
-/

namespace CellBedform

/-- Wrap table for the minus direction along an axis of size `n`.
Embeds `self.xminus = self.x - 1` followed by `self.xminus[0, :] = n - 1`
(and the analogous `yminus` construction): entry `j` holds `j - 1`,
with row `0` overwritten to `n - 1`. -/
def xminusT (n : ℕ) (j : ℕ) : ℕ :=
  if j = 0 then n - 1 else j - 1

/-- Wrap table for the plus direction along an axis of size `n`.
Embeds `self.xplus = self.x + 1` followed by `self.xplus[-1, :] = 0`
(and the analogous `yplus` construction): entry `j` holds `j + 1`,
with the last row `n - 1` overwritten to `0`. -/
def xplusT (n : ℕ) (j : ℕ) : ℕ :=
  if j = n - 1 then 0 else j + 1

/-- Embeds `self.yminus` (same construction as `self.xminus`, on the y axis). -/
def yminusT (n : ℕ) (k : ℕ) : ℕ :=
  if k = 0 then n - 1 else k - 1

/-- Embeds `self.yplus` (same construction as `self.xplus`, on the y axis). -/
def yplusT (n : ℕ) (k : ℕ) : ℕ :=
  if k = n - 1 then 0 else k + 1

/-- Rounding half to even, the semantics of `np.round` on exact values. -/
def npRound (q : ℚ) : ℤ :=
  let f := ⌊q⌋
  let r := q - f
  if r < 1/2 then f
  else if 1/2 < r then f + 1
  else if f % 2 = 0 then f else f + 1

/-- Phase A of `run_one_step` (rolling and sliding), exactly as the source
computes it:
`self.h = self.h + D * (-self.h + 1/6 * (h[xplus, y] + h[xminus, y] + h[x, yplus] + h[x, yminus]) + 1/12 * (h[xplus, yplus] + h[xplus, yminus] + h[xminus, yplus] + h[xminus, yplus]))`.
Note that the source repeats the diagonal `h[xminus, yplus]` twice and
never reads `h[xminus, yminus]`; this definition reproduces that. -/
def diffuse (X Y : ℕ) (D : ℚ) (h : ℕ → ℕ → ℚ) : ℕ → ℕ → ℚ :=
  fun j k =>
    h j k + D * (-(h j k)
      + 1/6 * (h (xplusT X j) k + h (xminusT X j) k
               + h j (yplusT Y k) + h j (yminusT Y k))
      + 1/12 * (h (xplusT X j) (yplusT Y k) + h (xplusT X j) (yminusT Y k)
               + h (xminusT X j) (yplusT Y k) + h (xminusT X j) (yplusT Y k)))

/-- Saltation length before clamping: `L = L0 + b * self.h`. -/
def saltLen (L0 b : ℚ) (h : ℕ → ℕ → ℚ) : ℕ → ℕ → ℚ :=
  fun j k => L0 + b * h j k

/-- Clamping of negative saltation lengths: `L[np.where(L < 0)] = 0`. -/
def clampLen (L : ℕ → ℕ → ℚ) : ℕ → ℕ → ℚ :=
  fun j k => if L j k < 0 then 0 else L j k

/-- Destination column index:
`np.round(L + x, out=dest)` followed by `np.mod(dest, self._xgrid, out=dest)`.
The x coordinate array satisfies `x[j, k] = j`.  numpy mod with a positive
modulus returns a value in `[0, xgrid)`, which is `Int.emod` here. -/
def destIdx (X : ℕ) (L : ℕ → ℕ → ℚ) : ℕ → ℕ → ℤ :=
  fun j k => npRound (L j k + (j : ℚ)) % (X : ℤ)

/-- One iteration `j` of the settling loop:
`self.h[dest[j, :].astype(np.int32), y[j, :]] = self.h[dest[j, :].astype(np.int32), y[j, :]] + Q`.
The fancy-index assignment writes the cells `(dest j k, k)` for `k < Y`;
these pairs are pairwise distinct (their y components differ), so the
statement adds `Q` at each such cell, reading the pre-statement array. -/
def settleStep (Q : ℚ) (Y : ℕ) (dest : ℕ → ℕ → ℤ) (j : ℕ)
    (h : ℕ → ℕ → ℚ) : ℕ → ℕ → ℚ :=
  fun a b => if b < Y ∧ dest j b = (a : ℤ) then h a b + Q else h a b

/-- The settling loop `for j in range(self.h.shape[0])`, executed
sequentially over the rows. -/
def settleAll (Q : ℚ) (X Y : ℕ) (dest : ℕ → ℕ → ℤ)
    (h : ℕ → ℕ → ℚ) : ℕ → ℕ → ℚ :=
  (List.range X).foldl (fun g j => settleStep Q Y dest j g) h

/-- The mutable fields of the engine that `run_one_step` touches:
the elevation array `self.h`, the stored length array `self.L` and
the stored destination array `self.dest`. -/
structure CBState where
  h : ℕ → ℕ → ℚ
  L : ℕ → ℕ → ℚ
  dest : ℕ → ℕ → ℤ

/-- Embeds `run_one_step`.  Phase A replaces `self.h`; then
`L = L0 + b * self.h` rebinds the LOCAL name `L` to a fresh array (the
field `self.L` is never written), the clamp and the two `out=dest`
operations fill `self.dest`, entrainment subtracts `Q` everywhere, and
the settling loop adds `Q` at each destination. -/
def runOneStep (X Y : ℕ) (D Q L0 b : ℚ) (s : CBState) : CBState :=
  let h1 := diffuse X Y D s.h
  let Lloc := clampLen (saltLen L0 b h1)
  let dest1 := destIdx X Lloc
  let h2 := fun a b => h1 a b - Q
  let h3 := settleAll Q X Y dest1 h2
  { h := h3, L := s.L, dest := dest1 }

/-- The elevation component of one step, for claims that speak only about
the grid. -/
def stepH (X Y : ℕ) (D Q L0 b : ℚ) (h : ℕ → ℕ → ℚ) : ℕ → ℕ → ℚ :=
  (runOneStep X Y D Q L0 b { h := h, L := fun _ _ => 0, dest := fun _ _ => 0 }).h

/-- Total elevation over the grid cells. -/
def gridSum (X Y : ℕ) (h : ℕ → ℕ → ℚ) : ℚ :=
  ∑ j ∈ Finset.range X, ∑ k ∈ Finset.range Y, h j k

/-- The y tables are built exactly as the x tables, on the other axis. -/
lemma yminusT_eq_xminusT : yminusT = xminusT := rfl

lemma yplusT_eq_xplusT : yplusT = xplusT := rfl

lemma xminusT_lt {X j : ℕ} (hj : j < X) : xminusT X j < X := by
  unfold xminusT; split <;> omega

lemma xplusT_lt {X j : ℕ} (hj : j < X) : xplusT X j < X := by
  unfold xplusT; split <;> omega

lemma xminusT_xplusT {X j : ℕ} (hj : j < X) : xminusT X (xplusT X j) = j := by
  unfold xminusT xplusT; split <;> split <;> omega

lemma xplusT_xminusT {X j : ℕ} (hj : j < X) : xplusT X (xminusT X j) = j := by
  unfold xminusT xplusT; split <;> split <;> omega

/-- Reindexing a sum over a row range by the plus table is a bijection. -/
lemma sum_comp_xplusT (X : ℕ) (f : ℕ → ℚ) :
    ∑ j ∈ Finset.range X, f (xplusT X j) = ∑ j ∈ Finset.range X, f j := by
  refine Finset.sum_nbij' (xplusT X) (xminusT X) ?_ ?_ ?_ ?_ ?_
  · intro a ha; exact Finset.mem_range.mpr (xplusT_lt (Finset.mem_range.mp ha))
  · intro a ha; exact Finset.mem_range.mpr (xminusT_lt (Finset.mem_range.mp ha))
  · intro a ha; exact xminusT_xplusT (Finset.mem_range.mp ha)
  · intro a ha; exact xplusT_xminusT (Finset.mem_range.mp ha)
  · intro a _; rfl

/-- Reindexing a sum over a row range by the minus table is a bijection. -/
lemma sum_comp_xminusT (X : ℕ) (f : ℕ → ℚ) :
    ∑ j ∈ Finset.range X, f (xminusT X j) = ∑ j ∈ Finset.range X, f j := by
  refine Finset.sum_nbij' (xminusT X) (xplusT X) ?_ ?_ ?_ ?_ ?_
  · intro a ha; exact Finset.mem_range.mpr (xminusT_lt (Finset.mem_range.mp ha))
  · intro a ha; exact Finset.mem_range.mpr (xplusT_lt (Finset.mem_range.mp ha))
  · intro a ha; exact xplusT_xminusT (Finset.mem_range.mp ha)
  · intro a ha; exact xminusT_xplusT (Finset.mem_range.mp ha)
  · intro a _; rfl

/-- With a zero diffusion coefficient, Phase A is the identity. -/
lemma diffuse_zero (X Y : ℕ) (h : ℕ → ℕ → ℚ) : diffuse X Y 0 h = h := by
  funext j k; simp [diffuse]

lemma destIdx_nonneg {X : ℕ} (hX : 0 < X) (L : ℕ → ℕ → ℚ) (j k : ℕ) :
    0 ≤ destIdx X L j k :=
  Int.emod_nonneg _ (by exact_mod_cast hX.ne')

lemma destIdx_lt {X : ℕ} (hX : 0 < X) (L : ℕ → ℕ → ℚ) (j k : ℕ) :
    destIdx X L j k < X :=
  Int.emod_lt_of_pos _ (by exact_mod_cast hX)

/-- C7: after construction with dimensions X, Y at least 1, the neighbor
tables wrap periodically: the minus table at index 0 gives the last index,
the plus table at the last index gives 0, on both axes, and every table
entry is a valid index below its dimension. -/
theorem neighbor_table_periodicity (X Y : ℕ) (hX : 1 ≤ X) (hY : 1 ≤ Y) :
    yminusT Y 0 = Y - 1 ∧ yplusT Y (Y - 1) = 0 ∧
    xminusT X 0 = X - 1 ∧ xplusT X (X - 1) = 0 ∧
    (∀ j, j < X → xminusT X j < X ∧ xplusT X j < X) ∧
    (∀ k, k < Y → yminusT Y k < Y ∧ yplusT Y k < Y) := by
  refine ⟨rfl, by unfold yplusT; simp, rfl, by unfold xplusT; simp, ?_, ?_⟩
  · exact fun j hj => ⟨xminusT_lt hj, xplusT_lt hj⟩
  · intro k hk
    rw [yminusT_eq_xminusT, yplusT_eq_xplusT]
    exact ⟨xminusT_lt hk, xplusT_lt hk⟩

theorem neighbor_table_periodicity_witness :
    1 ≤ 3 ∧ 1 ≤ 2 ∧
    (yminusT 2 0 = 2 - 1 ∧ yplusT 2 (2 - 1) = 0 ∧
     xminusT 3 0 = 3 - 1 ∧ xplusT 3 (3 - 1) = 0 ∧
     (∀ j, j < 3 → xminusT 3 j < 3 ∧ xplusT 3 j < 3) ∧
     (∀ k, k < 2 → yminusT 2 k < 2 ∧ yplusT 2 k < 2)) :=
  ⟨by decide, by decide, neighbor_table_periodicity 3 2 (by decide) (by decide)⟩

/-- C8: the clamped saltation length is non-negative for every cell and
every parameter choice, and the destination index after rounding and
wrapping is always a valid column index in the grid. -/
theorem saltation_dest_safety (X : ℕ) (L0 b : ℚ) (h : ℕ → ℕ → ℚ) (j k : ℕ)
    (hX : 0 < X) :
    0 ≤ clampLen (saltLen L0 b h) j k ∧
    0 ≤ destIdx X (clampLen (saltLen L0 b h)) j k ∧
    destIdx X (clampLen (saltLen L0 b h)) j k < X := by
  refine ⟨?_, destIdx_nonneg hX _ j k, destIdx_lt hX _ j k⟩
  unfold clampLen
  split
  · exact le_refl 0
  · exact le_of_not_lt (by assumption)

theorem saltation_dest_safety_witness :
    0 < 4 ∧
    (0 ≤ clampLen (saltLen (-5) 0 (fun _ _ => 0)) 0 0 ∧
     0 ≤ destIdx 4 (clampLen (saltLen (-5) 0 (fun _ _ => 0))) 0 0 ∧
     destIdx 4 (clampLen (saltLen (-5) 0 (fun _ _ => 0))) 0 0 < 4) :=
  ⟨by decide, saltation_dest_safety 4 (-5) 0 (fun _ _ => 0) 0 0 (by decide)⟩

/-- Settling with a zero entrainment rate leaves every cell unchanged. -/
lemma settleAll_zeroQ (X Y : ℕ) (dest : ℕ → ℕ → ℤ) (h : ℕ → ℕ → ℚ)
    (a b : ℕ) : settleAll 0 X Y dest h a b = h a b := by
  unfold settleAll
  generalize List.range X = l
  induction l generalizing h with
  | nil => rfl
  | cons j t ih =>
    rw [List.foldl_cons, ih]
    unfold settleStep
    split <;> simp

/-- C6: with D = 0 and Q = 0 a single step leaves every cell of the
elevation grid numerically unchanged. -/
theorem zero_parameter_identity (X Y : ℕ) (L0 b : ℚ) (h : ℕ → ℕ → ℚ)
    (a c : ℕ) : stepH X Y 0 0 L0 b h a c = h a c := by
  unfold stepH runOneStep
  simp only [diffuse_zero, sub_zero]
  exact settleAll_zeroQ X Y _ h a c

lemma sum_comp_yplusT (Y : ℕ) (f : ℕ → ℚ) :
    ∑ k ∈ Finset.range Y, f (yplusT Y k) = ∑ k ∈ Finset.range Y, f k := by
  rw [yplusT_eq_xplusT]; exact sum_comp_xplusT Y f

lemma sum_comp_yminusT (Y : ℕ) (f : ℕ → ℚ) :
    ∑ k ∈ Finset.range Y, f (yminusT Y k) = ∑ k ∈ Finset.range Y, f k := by
  rw [yminusT_eq_xminusT]; exact sum_comp_xminusT Y f

/-- C10: Phase A conserves total elevation exactly, for every diffusion
coefficient D and every grid state: each neighbor-indexed term is a
permutation of the grid cells and the coefficients sum to zero. -/
theorem diffusion_mass_conservation (X Y : ℕ) (D : ℚ) (h : ℕ → ℕ → ℚ) :
    gridSum X Y (diffuse X Y D h) = gridSum X Y h := by
  have e2 : ∑ j ∈ Finset.range X, ∑ k ∈ Finset.range Y, h (xplusT X j) k
      = ∑ j ∈ Finset.range X, ∑ k ∈ Finset.range Y, h j k :=
    sum_comp_xplusT X fun j => ∑ k ∈ Finset.range Y, h j k
  have e3 : ∑ j ∈ Finset.range X, ∑ k ∈ Finset.range Y, h (xminusT X j) k
      = ∑ j ∈ Finset.range X, ∑ k ∈ Finset.range Y, h j k :=
    sum_comp_xminusT X fun j => ∑ k ∈ Finset.range Y, h j k
  have e4 : ∑ j ∈ Finset.range X, ∑ k ∈ Finset.range Y, h j (yplusT Y k)
      = ∑ j ∈ Finset.range X, ∑ k ∈ Finset.range Y, h j k :=
    Finset.sum_congr rfl fun j _ => sum_comp_yplusT Y (h j)
  have e5 : ∑ j ∈ Finset.range X, ∑ k ∈ Finset.range Y, h j (yminusT Y k)
      = ∑ j ∈ Finset.range X, ∑ k ∈ Finset.range Y, h j k :=
    Finset.sum_congr rfl fun j _ => sum_comp_yminusT Y (h j)
  have e6 : ∑ j ∈ Finset.range X, ∑ k ∈ Finset.range Y, h (xplusT X j) (yplusT Y k)
      = ∑ j ∈ Finset.range X, ∑ k ∈ Finset.range Y, h j k := by
    rw [sum_comp_xplusT X fun j => ∑ k ∈ Finset.range Y, h j (yplusT Y k)]
    exact e4
  have e7 : ∑ j ∈ Finset.range X, ∑ k ∈ Finset.range Y, h (xplusT X j) (yminusT Y k)
      = ∑ j ∈ Finset.range X, ∑ k ∈ Finset.range Y, h j k := by
    rw [sum_comp_xplusT X fun j => ∑ k ∈ Finset.range Y, h j (yminusT Y k)]
    exact e5
  have e8 : ∑ j ∈ Finset.range X, ∑ k ∈ Finset.range Y, h (xminusT X j) (yplusT Y k)
      = ∑ j ∈ Finset.range X, ∑ k ∈ Finset.range Y, h j k := by
    rw [sum_comp_xminusT X fun j => ∑ k ∈ Finset.range Y, h j (yplusT Y k)]
    exact e4
  unfold gridSum diffuse
  simp only [Finset.sum_add_distrib, Finset.sum_neg_distrib, ← Finset.mul_sum]
  rw [e2, e3, e4, e5, e6, e7, e8]
  ring

/-- Summing an indicator of the destination over the column range gives
exactly one hit when the destination is a valid column. -/
lemma sum_ite_dest {X : ℕ} (d : ℤ) (hd0 : 0 ≤ d) (hdX : d < X) (Q : ℚ) :
    ∑ a ∈ Finset.range X, (if d = (a : ℤ) then Q else 0) = Q := by
  have hmem : d.toNat ∈ Finset.range X := Finset.mem_range.mpr (by omega)
  have hcong : ∀ a ∈ Finset.range X,
      (if d = (a : ℤ) then Q else 0) = (if a = d.toNat then Q else 0) := by
    intro a _
    have hiff : (d = (a : ℤ)) ↔ (a = d.toNat) := by omega
    simp only [hiff]
  rw [Finset.sum_congr rfl hcong, Finset.sum_ite_eq' (Finset.range X) d.toNat fun _ => Q,
    if_pos hmem]

/-- One settling iteration adds Q once per column of the row, when every
destination is a valid column. -/
lemma gridSum_settleStep (X Y : ℕ) (Q : ℚ) (dest : ℕ → ℕ → ℤ)
    (hdest : ∀ j k, 0 ≤ dest j k ∧ dest j k < X) (j : ℕ) (h : ℕ → ℕ → ℚ) :
    gridSum X Y (settleStep Q Y dest j h) = gridSum X Y h + Q * Y := by
  unfold gridSum settleStep
  have hsplit : ∀ a ∈ Finset.range X, ∀ b ∈ Finset.range Y,
      (if b < Y ∧ dest j b = (a : ℤ) then h a b + Q else h a b)
        = h a b + (if dest j b = (a : ℤ) then Q else 0) := by
    intro a _ b hb
    have hbY : b < Y := Finset.mem_range.mp hb
    by_cases hd : dest j b = (a : ℤ)
    · simp [hd, hbY]
    · simp [hd]
  rw [Finset.sum_congr rfl fun a ha => Finset.sum_congr rfl (hsplit a ha)]
  simp only [Finset.sum_add_distrib]
  rw [Finset.sum_comm (s := Finset.range X) (t := Finset.range Y)
    (f := fun a b => if dest j b = (a : ℤ) then Q else 0)]
  rw [Finset.sum_congr rfl fun b _ =>
    sum_ite_dest (dest j b) (hdest j b).1 (hdest j b).2 Q]
  rw [Finset.sum_const, Finset.card_range, nsmul_eq_mul]
  ring

/-- The whole settling loop adds Q once per source cell, when every
destination is a valid column. -/
lemma gridSum_settleAll (X Y : ℕ) (Q : ℚ) (dest : ℕ → ℕ → ℤ)
    (hdest : ∀ j k, 0 ≤ dest j k ∧ dest j k < X) (h : ℕ → ℕ → ℚ) :
    gridSum X Y (settleAll Q X Y dest h) = gridSum X Y h + Q * Y * X := by
  unfold settleAll
  suffices H : ∀ (l : List ℕ) (g : ℕ → ℕ → ℚ),
      gridSum X Y (l.foldl (fun g j => settleStep Q Y dest j g) g)
        = gridSum X Y g + Q * Y * l.length by
    simpa using H (List.range X) h
  intro l
  induction l with
  | nil => intro g; simp
  | cons j t ih =>
    intro g
    rw [List.foldl_cons, ih, gridSum_settleStep X Y Q dest hdest j g]
    push_cast [List.length_cons]
    ring

/-- Uniform entrainment subtracts Q once per cell from the total. -/
lemma gridSum_entrain (X Y : ℕ) (Q : ℚ) (h : ℕ → ℕ → ℚ) :
    gridSum X Y (fun a b => h a b - Q) = gridSum X Y h - Q * Y * X := by
  unfold gridSum
  simp only [Finset.sum_sub_distrib, Finset.sum_const, Finset.card_range, nsmul_eq_mul]
  ring

/-- One step with D = 0 conserves the total elevation. -/
lemma stepH_sum_D0 (X Y : ℕ) (Q L0 b : ℚ) (h : ℕ → ℕ → ℚ) (hX : 0 < X) :
    gridSum X Y (stepH X Y 0 Q L0 b h) = gridSum X Y h := by
  unfold stepH runOneStep
  simp only [diffuse_zero]
  rw [gridSum_settleAll X Y Q _
    (fun j k => ⟨destIdx_nonneg hX _ j k, destIdx_lt hX _ j k⟩),
    gridSum_entrain]
  ring

/-- C5: with D = 0 the saltation phase conserves total elevation exactly,
for every grid state and every number of steps. -/
theorem pure_saltation_mass_conservation (X Y : ℕ) (Q L0 b : ℚ)
    (h : ℕ → ℕ → ℚ) (n : ℕ) (hX : 0 < X) :
    gridSum X Y ((stepH X Y 0 Q L0 b)^[n] h) = gridSum X Y h := by
  induction n with
  | zero => rfl
  | succ m ih =>
    rw [Function.iterate_succ_apply', stepH_sum_D0 X Y Q L0 b _ hX, ih]

theorem pure_saltation_mass_conservation_witness :
    0 < 1 ∧
    gridSum 1 1 ((stepH 1 1 0 (3/5) (73/10) 2)^[1] fun _ _ => 0)
      = gridSum 1 1 fun _ _ => 0 :=
  ⟨by decide,
   pure_saltation_mass_conservation 1 1 (3/5) (73/10) 2 (fun _ _ => 0) 1 (by decide)⟩

/-- Pointwise effect of the settling loop over an arbitrary list of rows:
a cell in a valid column receives Q once for every listed row whose
destination in that column hits the cell. -/
lemma foldl_settle_apply (Q : ℚ) (Y : ℕ) (dest : ℕ → ℕ → ℤ) (l : List ℕ)
    (h : ℕ → ℕ → ℚ) (a b : ℕ) (hb : b < Y) :
    (l.foldl (fun g j => settleStep Q Y dest j g) h) a b
      = h a b + Q * (l.countP fun j => decide (dest j b = (a : ℤ))) := by
  induction l generalizing h with
  | nil => simp
  | cons j t ih =>
    rw [List.foldl_cons, ih, List.countP_cons]
    by_cases hd : dest j b = (a : ℤ)
    · simp only [settleStep, hd, hb, and_self, if_true, decide_True]
      push_cast
      ring
    · simp only [settleStep, hd, and_false, if_false, decide_False]
      push_cast
      ring

/-- Counting over a Finset range agrees with counting over a List range. -/
lemma card_filter_range_eq_countP (X : ℕ) (p : ℕ → Prop) [DecidablePred p] :
    ((Finset.range X).filter p).card
      = (List.range X).countP fun j => decide (p j) := by
  induction X with
  | zero => simp
  | succ n ih =>
    rw [Finset.range_succ, List.range_succ, Finset.filter_insert,
      List.countP_append]
    by_cases hp : p n
    · rw [if_pos hp, Finset.card_insert_of_not_mem (by simp), ih]
      simp [hp]
    · rw [if_neg hp, ih]
      simp [hp]

/-- C3: in the settling phase, every cell of the grid gains exactly Q
times the number of source cells whose wrapped rounded destination equals
that cell: concurrent contributions accumulate additively. -/
theorem settling_accumulates (X Y : ℕ) (Q : ℚ) (dest : ℕ → ℕ → ℤ)
    (h : ℕ → ℕ → ℚ) (a b : ℕ) (hb : b < Y) :
    settleAll Q X Y dest h a b
      = h a b
        + Q * ((Finset.range X).filter fun j => dest j b = (a : ℤ)).card := by
  unfold settleAll
  rw [foldl_settle_apply Q Y dest (List.range X) h a b hb,
    card_filter_range_eq_countP X fun j => dest j b = (a : ℤ)]

theorem settling_accumulates_witness :
    0 < 2 ∧
    settleAll (3/5) 2 2 (fun _ _ => 1) (fun _ _ => 0) 1 0
      = (fun _ _ => (0 : ℚ)) 1 0
        + (3/5) * ((Finset.range 2).filter fun j =>
            (fun _ _ => (1 : ℤ)) j 0 = ((1 : ℕ) : ℤ)).card :=
  ⟨by decide,
   settling_accumulates 2 2 (3/5) (fun _ _ => 1) (fun _ _ => 0) 1 0 (by decide)⟩

/-- A concrete engine state: a flat zero elevation, a stored length array
holding the construction-time contents (arbitrary, here 42, since the
source allocates it with np.empty), and a zero destination array. -/
def exState : CBState :=
  { h := fun _ _ => 0, L := fun _ _ => 42, dest := fun _ _ => 0 }

/-- Counterexample to C9: after one step on a 1 x 1 grid with the default
parameters, the stored length field still holds its construction-time
value 42, while the clamped transport length computed from the
post-diffusion elevation of that step is 73/10; the stored field does not
hold the transport length of the step. -/
theorem stored_length_stale_counterexample :
    (runOneStep 1 1 (4/5) (3/5) (73/10) 2 exState).L 0 0 = 42
    ∧ clampLen (saltLen (73/10) 2 (diffuse 1 1 (4/5) exState.h)) 0 0 = 73/10
    ∧ (42 : ℚ) ≠ 73/10 := by
  refine ⟨rfl, ?_, by norm_num⟩
  norm_num [clampLen, saltLen, diffuse, exState]

/-- C9 amended: the stored destination field is recomputed in place on
every step and holds the rounded wrapped destination columns computed
from the post-diffusion elevation of that step; the stored
saltation-length field is never recomputed (the per-step length lives in
a fresh local array), so it keeps its previous contents across steps. -/
theorem scratch_field_recomputation (X Y : ℕ) (D Q L0 b : ℚ) (s : CBState)
    (j k : ℕ) :
    (runOneStep X Y D Q L0 b s).L j k = s.L j k
    ∧ (runOneStep X Y D Q L0 b s).dest j k
        = destIdx X (clampLen (saltLen L0 b (diffuse X Y D s.h))) j k :=
  ⟨rfl, rfl⟩

/-- Modelled from the spec, section 4.2 Phase A: the diffusion update with
four genuinely distinct diagonal neighbors NE, NW, SE, SW (the fourth
diagonal term reads the minus-x minus-y neighbor).  Stated only to compare
the diffusion the source computes against the formula the spec requires. -/
def diffuseSpecFormula (X Y : ℕ) (D : ℚ) (h : ℕ → ℕ → ℚ) : ℕ → ℕ → ℚ :=
  fun j k =>
    h j k + D * (-(h j k)
      + 1/6 * (h (xplusT X j) k + h (xminusT X j) k
               + h j (yplusT Y k) + h j (yminusT Y k))
      + 1/12 * (h (xplusT X j) (yplusT Y k) + h (xplusT X j) (yminusT Y k)
               + h (xminusT X j) (yplusT Y k) + h (xminusT X j) (yminusT Y k)))

/-- A 3 x 3 grid holding 1 at the cell (0, 0) and 0 elsewhere. -/
def exGridUnit : ℕ → ℕ → ℚ :=
  fun j k => if j = 0 ∧ k = 0 then 1 else 0

/-- C1 fails on the code: at the cell (1, 1) of a 3 x 3 grid holding 1
only at (0, 0), with D = 4/5, the source's Phase A yields 0 because its
fourth diagonal term reads the minus-x PLUS-y neighbor again instead of
the minus-x minus-y one, while the update the claim states yields 1/15. -/
theorem diffusion_diagonal_duplicate :
    diffuse 3 3 (4/5) exGridUnit 1 1 = 0
    ∧ diffuseSpecFormula 3 3 (4/5) exGridUnit 1 1 = 1/15
    ∧ diffuse 3 3 (4/5) exGridUnit 1 1
        ≠ diffuseSpecFormula 3 3 (4/5) exGridUnit 1 1 := by
  refine ⟨?_, ?_, ?_⟩ <;>
    norm_num [diffuse, diffuseSpecFormula, exGridUnit, xplusT, xminusT,
      yplusT, yminusT]

/-- A numpy double as far as the constructor is concerned: either a finite
value or one of the non-finite values.  The constructor only stores the
four scalar parameters, so no arithmetic on this type is needed. -/
inductive NpFloat where
  | finite (q : ℚ)
  | nan
  | inf
  | neginf
deriving DecidableEq

/-- Finiteness of a parameter value. -/
def NpFloat.isFinite : NpFloat → Bool
  | .finite _ => true
  | _ => false

/-- The configuration a successful construction stores. -/
structure CBConfig where
  xgrid : ℤ
  ygrid : ℤ
  D : NpFloat
  Q : NpFloat
  L0 : NpFloat
  b : NpFloat
deriving DecidableEq

/-- Embeds the constructor as far as success or failure is concerned.
The source performs no validation of its own: it stores the parameters
unchecked and builds the arrays.  The only operations that can raise are
the numpy calls: np.random.rand raises ValueError for a negative
dimension, and the boundary writes self.xminus[0, :] and
self.yminus[:, 0] raise IndexError when the respective dimension is zero
(the indexed axis is empty).  A raise is modelled as none. -/
def cbInit (xgrid ygrid : ℤ) (D Q L0 b : NpFloat) : Option CBConfig :=
  if xgrid ≤ 0 ∨ ygrid ≤ 0 then none
  else some { xgrid := xgrid, ygrid := ygrid, D := D, Q := Q, L0 := L0, b := b }

/-- Counterexample to C2: construction with positive dimensions and a
non-finite diffusion coefficient succeeds; the constructor never checks
finiteness of D, Q, L0 or b, so no error is raised where the claim
requires one. -/
theorem init_accepts_nonfinite :
    (cbInit 4 4 NpFloat.nan (.finite (3/5)) (.finite (73/10))
      (.finite 2)).isSome = true
    ∧ NpFloat.nan.isFinite = false := by
  constructor <;> rfl

/-- C2 amended: construction fails exactly when a grid dimension is
non-positive (negative dimensions are rejected by the array allocator,
zero dimensions by the boundary-row write), and otherwise succeeds for
every parameter value, finite or not: the parameters are stored
unvalidated. -/
theorem init_success_iff (xg yg : ℤ) (D Q L0 b : NpFloat) :
    (cbInit xg yg D Q L0 b).isSome = true ↔ (0 < xg ∧ 0 < yg) := by
  unfold cbInit
  split
  · simp only [Option.isSome_none, Bool.false_eq_true, false_iff]
    omega
  · simp only [Option.isSome_some, true_iff]
    omega

/-- The all-zero elevation field of the end-to-end example. -/
def zeroGrid : ℕ → ℕ → ℚ :=
  fun _ _ => 0

/-- Evaluation rule for numpy rounding below the half-way point. -/
lemma npRound_eval (q : ℚ) (f : ℤ) (hf : ⌊q⌋ = f) (hr : q - f < 1/2) :
    npRound q = f := by
  unfold npRound
  rw [hf, if_pos hr]

/-- Unfolding of the elevation component of one step. -/
lemma stepH_eq (X Y : ℕ) (D Q L0 b : ℚ) (h : ℕ → ℕ → ℚ) :
    stepH X Y D Q L0 b h
      = settleAll Q X Y (destIdx X (clampLen (saltLen L0 b (diffuse X Y D h))))
          (fun p q => diffuse X Y D h p q - Q) := rfl

/-- C4: on a 4 x 4 all-zero grid with D = 4/5, Q = 3/5, L0 = 73/10 and
b = 2, one step behaves as the claim describes: diffusion leaves every
cell at 0, entrainment then brings every cell to -3/5, every destination
column is round(x + 73/10) mod 4 with the same y, and the resulting grid
holds -3/5 + 3/5 times the number of source rows mapping to the cell —
which is 1 for every cell, so the step returns the grid to all zeros. -/
theorem end_to_end_example (a b : Fin 4) :
    diffuse 4 4 (4/5) zeroGrid a b = 0
    ∧ diffuse 4 4 (4/5) zeroGrid a b - 3/5 = -(3/5)
    ∧ (∀ j : Fin 4,
        destIdx 4 (clampLen (saltLen (73/10) 2 (diffuse 4 4 (4/5) zeroGrid))) j b
          = npRound (((j : ℕ) : ℚ) + 73/10) % 4)
    ∧ stepH 4 4 (4/5) (3/5) (73/10) 2 zeroGrid a b
        = -(3/5) + (3/5) * ((Finset.range 4).filter fun j =>
            destIdx 4 (clampLen (saltLen (73/10) 2 (diffuse 4 4 (4/5) zeroGrid)))
              j (b : ℕ) = ((a : ℕ) : ℤ)).card
    ∧ stepH 4 4 (4/5) (3/5) (73/10) 2 zeroGrid a b = 0 := by
  have hdiff : ∀ p q : ℕ, diffuse 4 4 (4/5) zeroGrid p q = 0 := by
    intro p q
    norm_num [diffuse, zeroGrid]
  have hL : ∀ p q : ℕ,
      clampLen (saltLen (73/10) 2 (diffuse 4 4 (4/5) zeroGrid)) p q = 73/10 := by
    intro p q
    simp [clampLen, saltLen, hdiff]
    norm_num
  have hd : ∀ p q : ℕ,
      destIdx 4 (clampLen (saltLen (73/10) 2 (diffuse 4 4 (4/5) zeroGrid))) p q
        = ((p : ℤ) + 7) % 4 := by
    intro p q
    have hf : ⌊(73 : ℚ)/10 + (p : ℚ)⌋ = (p : ℤ) + 7 := by
      rw [Int.floor_eq_iff]
      push_cast
      constructor <;> linarith
    simp only [destIdx]
    rw [hL, npRound_eval (73/10 + (p : ℚ)) ((p : ℤ) + 7) hf (by push_cast; linarith)]
    norm_num
  have hd2 : ∀ p : ℕ, npRound ((p : ℚ) + 73/10) % 4 = ((p : ℤ) + 7) % 4 := by
    intro p
    have hf : ⌊(p : ℚ) + (73 : ℚ)/10⌋ = (p : ℤ) + 7 := by
      rw [Int.floor_eq_iff]
      push_cast
      constructor <;> linarith
    rw [npRound_eval ((p : ℚ) + 73/10) ((p : ℤ) + 7) hf (by push_cast; linarith)]
  refine ⟨hdiff a b, by rw [hdiff]; norm_num, fun j => by rw [hd, hd2], ?_, ?_⟩
  · rw [stepH_eq]
    unfold settleAll
    rw [foldl_settle_apply (3/5) 4 _ (List.range 4) _ a b b.is_lt,
      card_filter_range_eq_countP]
    rw [hdiff]
    ring
  · rw [stepH_eq]
    unfold settleAll
    rw [foldl_settle_apply (3/5) 4 _ (List.range 4) _ a b b.is_lt]
    rw [hdiff]
    simp only [hd]
    fin_cases a <;>
      norm_num [List.range_succ, List.countP_cons, List.countP_nil]

end CellBedform
